import Mathlib

/-!
# Verification of the distributed audio processing task core

Shallow embedding of the task-manager / server core of the repository:
the task store (`getNextTask`, `submitResult`, `isAllDone`,
`checkAndRequeueStuckTasks`, `finalizeResults` from `task-manager.js`),
the chunk partitioner (`loadChunks`), the wire frames built by
`client.js` / `server.js`, and the dispatcher's disconnect requeue
(`server.js` close handler).

Bytes are modelled as `Nat` (the code only moves them, never does byte
arithmetic), buffers as `List Nat`, timestamps as `Nat` milliseconds and
the JS `Map` of tasks as a `List Task` in insertion order (task ids are
inserted ascending 1..N, and a JS `Map` iterates in insertion order).
-/

namespace TaskManager

/-- `TaskStatus` from task-manager.js: `{PENDING, ASSIGNED, DONE}`. -/
inductive TaskStatus where
  | pending
  | assigned
  | done
deriving DecidableEq, Repr

/-- One entry of the `tasks` map created in `loadChunks`:
`{ id, chunkIndex, buffer, status, assignedTo, assignmentTime, result }`. -/
structure Task where
  id : Nat
  chunkIndex : Nat
  buffer : List Nat
  status : TaskStatus
  assignedTo : Option Nat
  assignmentTime : Option Nat
  result : Option (List Nat)
deriving DecidableEq, Repr

/-- `SAMPLE_RATE = 44100` floats per second. -/
def SAMPLE_RATE : Nat := 44100

/-- `FLOAT_SIZE = 4` bytes per 32-bit float. -/
def FLOAT_SIZE : Nat := 4

/-- `CHUNK_SAMPLES = SAMPLE_RATE` (1 second chunks). -/
def CHUNK_SAMPLES : Nat := SAMPLE_RATE

/-- `CHUNK_BYTES = CHUNK_SAMPLES * FLOAT_SIZE`. -/
def CHUNK_BYTES : Nat := CHUNK_SAMPLES * FLOAT_SIZE

/-- `ASSIGNED_TIMEOUT_MS = 5000`, the stuck-task sweep threshold. -/
def ASSIGNED_TIMEOUT_MS : Nat := 5000

/-! ## Chunk partitioner (`loadChunks`) -/

/-- Number of tasks created: `Math.ceil(data.length / CHUNK_BYTES)`,
with the chunk size abstracted as a parameter (the source fixes it to
`CHUNK_BYTES`; the spec treats it as a configuration parameter). -/
def numChunks (len chunkSize : Nat) : Nat :=
  (len + chunkSize - 1) / chunkSize

/-- The slice taken for chunk `i` in the `loadChunks` loop:
`data.slice(i*CHUNK_BYTES, Math.min(i*CHUNK_BYTES + CHUNK_BYTES, data.length))`. -/
def chunkAt (data : List Nat) (chunkSize i : Nat) : List Nat :=
  (data.drop (i * chunkSize)).take
    (min (i * chunkSize + chunkSize) data.length - i * chunkSize)

/-- The ordered chunk buffers produced by the partitioning loop. -/
def loadChunksBuffers (data : List Nat) (chunkSize : Nat) : List (List Nat) :=
  (List.range (numChunks data.length chunkSize)).map (chunkAt data chunkSize)

/-- The task list created by `loadChunks`: task `i` (0-based loop index)
gets `id = i + 1`, `chunkIndex = i`, the slice as `buffer`, status
`PENDING` and null assignment/result fields. -/
def loadChunksTasks (data : List Nat) (chunkSize : Nat) : List Task :=
  (List.range (numChunks data.length chunkSize)).map fun i =>
    { id := i + 1
      chunkIndex := i
      buffer := chunkAt data chunkSize i
      status := TaskStatus.pending
      assignedTo := none
      assignmentTime := none
      result := none }

/-! ## Task store operations -/

/-- The mutation `getNextTask` performs on the first pending task:
`task.status = ASSIGNED; task.assignedTo = peerId; task.assignmentTime = Date.now()`. -/
def assignTask (peerId now : Nat) (t : Task) : Task :=
  { t with status := TaskStatus.assigned
           assignedTo := some peerId
           assignmentTime := some now }

/-- `getNextTask(peerId)`: iterate the task map in insertion order,
assign and return the first `PENDING` task, or return null.  `Date.now()`
is the explicit `now` parameter. -/
def getNextTask (peerId now : Nat) : List Task → Option Task × List Task
  | [] => (none, [])
  | t :: ts =>
    if t.status = TaskStatus.pending then
      (some (assignTask peerId now t), assignTask peerId now t :: ts)
    else
      let r := getNextTask peerId now ts
      (r.1, t :: r.2)

/-- The successful-submission mutation of `submitResult`:
`status = DONE; result = resultBuffer; assignedTo = null; assignmentTime = null`. -/
def completeTask (resultBuffer : List Nat) (t : Task) : Task :=
  { t with status := TaskStatus.done
           result := some resultBuffer
           assignedTo := none
           assignmentTime := none }

/-- `submitResult(taskId, resultBuffer)`: false when the task is absent
from the map, already `DONE`, or the buffer length differs from the
task's payload length; otherwise mark it done. -/
def submitResult (taskId : Nat) (resultBuffer : List Nat) (ts : List Task) :
    Bool × List Task :=
  match ts.find? (fun t => t.id == taskId) with
  | none => (false, ts)
  | some task =>
    if task.status = TaskStatus.done then (false, ts)
    else if resultBuffer.length ≠ task.buffer.length then (false, ts)
    else (true, ts.map fun t => if t.id == taskId then completeTask resultBuffer t else t)

/-- `isAllDone()`: the count of `DONE` tasks equals the map size. -/
def isAllDone (ts : List Task) : Bool :=
  (ts.filter fun t => t.status == TaskStatus.done).length == ts.length

/-- The per-task body of the `checkAndRequeueStuckTasks` loop:
if `status === ASSIGNED && assignmentTime !== null` and
`now - assignmentTime > ASSIGNED_TIMEOUT_MS`, revert to pending and
clear the assignment fields.  JS number subtraction is modelled in `Int`. -/
def sweepTask (now : Nat) (t : Task) : Task :=
  match t.assignmentTime with
  | some t0 =>
    if t.status = TaskStatus.assigned ∧
        (now : Int) - (t0 : Int) > (ASSIGNED_TIMEOUT_MS : Int) then
      { t with status := TaskStatus.pending
               assignedTo := none
               assignmentTime := none }
    else t
  | none => t

/-- `checkAndRequeueStuckTasks()` applied at time `now`. -/
def checkAndRequeueStuckTasks (now : Nat) (ts : List Task) : List Task :=
  ts.map (sweepTask now)

/-- Modelled from the spec: `revertToPending(taskId)` — "transitions
`Assigned → Pending`, clearing `assignedPeer`/`assignedAt`.  No-op (or
rejected) if task is not currently `Assigned`."  The repository code
contains no function of this name; both the sweep and the dispatcher's
disconnect handler inline this transition. -/
def revertToPending (t : Task) : Task :=
  if t.status = TaskStatus.assigned then
    { t with status := TaskStatus.pending
             assignedTo := none
             assignmentTime := none }
  else t

/-! ## Dispatcher disconnect handling (`server.js` close handler) -/

/-- The per-task effect of the disconnect handler: for each `taskId` in
the disconnected peer's `assignedTasks` set, if the store still shows it
`assigned` to that peer, set it back to pending and clear the
assignment fields (server.js lines 279-296). -/
def disconnectRequeueTask (peer : Nat) (loaned : List Nat) (t : Task) : Task :=
  if t.id ∈ loaned ∧ t.status = TaskStatus.assigned ∧ t.assignedTo = some peer then
    { t with status := TaskStatus.pending
             assignedTo := none
             assignmentTime := none }
  else t

/-- The disconnect handler's total effect on the task store. -/
def disconnectRequeue (peer : Nat) (loaned : List Nat) (ts : List Task) : List Task :=
  ts.map (disconnectRequeueTask peer loaned)

/-! ## Finalizer (`finalizeResults`) -/

/-- Insertion step of the stable sort by `chunkIndex` that models
`Array.from(tasks.values()).sort((a, b) => a.chunkIndex - b.chunkIndex)`. -/
def insertByChunkIndex (t : Task) : List Task → List Task
  | [] => [t]
  | u :: us =>
    if u.chunkIndex ≤ t.chunkIndex then u :: insertByChunkIndex t us
    else t :: u :: us

/-- Stable sort of the task list by ascending `chunkIndex`. -/
def sortByChunkIndex : List Task → List Task
  | [] => []
  | t :: ts => insertByChunkIndex t (sortByChunkIndex ts)

/-- `Buffer.concat(orderedResults)`: results of the tasks sorted by
`chunkIndex`, concatenated (a `DONE` task's `result` is present; `getD`
totalises the `Option`). -/
def combinedBuffer (ts : List Task) : List Nat :=
  ((sortByChunkIndex ts).map fun t => t.result.getD []).flatten

/-- Reinterpreting the byte buffer as 32-bit samples: consecutive groups
of `FLOAT_SIZE = 4` bytes, in order (`new Float32Array(...)` view). -/
def toSamples : List Nat → List (List Nat)
  | [] => []
  | b :: bs => (b :: bs.take 3) :: toSamples (bs.drop 3)
termination_by l => l.length
decreasing_by
  simp only [List.length_cons, List.length_drop]
  omega

/-- The reversal loop `reversedArray[i] = floatArray[floatArray.length - 1 - i]`. -/
def reverseSamples (samples : List (List Nat)) : List (List Nat) :=
  (List.range samples.length).map fun i =>
    samples.getD (samples.length - 1 - i) []

/-- One file written by the finalizer. -/
structure FileWrite where
  path : String
  contents : List Nat
deriving DecidableEq, Repr

/-- Key file path (`generated_data/encryption_key.bin`). -/
def ENCRYPTION_KEY_PATH : String := "generated_data/encryption_key.bin"

/-- IV file path (`generated_data/encryption_iv.bin`). -/
def ENCRYPTION_IV_PATH : String := "generated_data/encryption_iv.bin"

/-- Artifact file path (`generated_data/result.raw`). -/
def RESULT_FILE_PATH : String := "generated_data/result.raw"

/-- `finalizeResults()`: returns null with no file writes unless
`isAllDone()`; otherwise concatenates the results in `chunkIndex` order,
reverses the whole sample sequence, encrypts it (the AES-256-CBC cipher
of the `crypto` module is an opaque parameter `encrypt`, and the random
`key`/`iv` are parameters), writes the key file, the IV file and the
artifact `iv ++ ciphertext`, and returns the artifact content.  The
source function never mutates any task, so the store is input-only. -/
def finalizeResults (encrypt : List Nat → List Nat) (key iv : List Nat)
    (ts : List Task) : Option (List Nat) × List FileWrite :=
  if isAllDone ts then
    let reversedBuffer := (reverseSamples (toSamples (combinedBuffer ts))).flatten
    let encrypted := encrypt reversedBuffer
    let finalContent := iv ++ encrypted
    (some finalContent,
      [⟨ENCRYPTION_KEY_PATH, key⟩, ⟨ENCRYPTION_IV_PATH, iv⟩,
       ⟨RESULT_FILE_PATH, finalContent⟩])
  else (none, [])

/-! ## Wire protocol frames -/

/-- `buffer.writeUInt16BE(v, off)`: high byte then low byte. -/
def writeUInt16BE (v : Nat) : List Nat := [v / 256 % 256, v % 256]

/-- `buffer.readUInt16BE(off)`: big-endian 16-bit read (out-of-range
reads yield 0 here; the code never performs them). -/
def readUInt16BE (bytes : List Nat) (off : Nat) : Nat :=
  bytes.getD off 0 * 256 + bytes.getD (off + 1) 0

/-- Worker→server command id 0 (handshake). -/
def CLIENT_COMMAND_HANDSHAKE : Nat := 0

/-- Worker→server command id 1 (request-task). -/
def CLIENT_COMMAND_REQUEST_TASK : Nat := 1

/-- Worker→server command id 2 (submit-result). -/
def CLIENT_COMMAND_SUBMIT_RESULT : Nat := 2

/-- Server→worker command id 100 (task-data). -/
def SERVER_COMMAND_TYPE_TASK_DATA : Nat := 100

/-- Server→worker command id 101 (status-message). -/
def SERVER_COMMAND_TYPE_STATUS_MESSAGE : Nat := 101

/-- Every worker→server frame built by client.js: 16-bit BE peer id,
16-bit BE command id, then the JSON body bytes (the handshake uses 0
for the not-yet-assigned peer id). -/
def mkClientFrame (peerId commandId : Nat) (body : List Nat) : List Nat :=
  writeUInt16BE peerId ++ writeUInt16BE commandId ++ body

/-- The server's task-data frame (server.js lines 145-149):
`writeUInt16BE(SERVER_COMMAND_TYPE_TASK_DATA, 0)` then
`writeUInt16BE(task.id, 2)` then the raw chunk bytes. -/
def mkTaskDataFrame (taskId : Nat) (chunk : List Nat) : List Nat :=
  writeUInt16BE SERVER_COMMAND_TYPE_TASK_DATA ++ writeUInt16BE taskId ++ chunk

/-- The server's status frame: `writeUInt16BE(0, 0)` (peer id 0 for a
general status message) then `writeUInt16BE(SERVER_COMMAND_TYPE_STATUS_MESSAGE, 2)`
then the JSON body bytes. -/
def mkStatusFrame (body : List Nat) : List Nat :=
  writeUInt16BE 0 ++ writeUInt16BE SERVER_COMMAND_TYPE_STATUS_MESSAGE ++ body

/-- The 2-byte handshake acknowledgment: just the assigned peer id, BE. -/
def mkHandshakeAck (assignedId : Nat) : List Nat :=
  writeUInt16BE assignedId

/-! ## Iterated assignment and reachable states -/

/-- `m` successive `getNextTask` calls by peer `peerId`, collecting the
returned tasks. -/
def getNextTaskRun (peerId now : Nat) : Nat → List Task → List Task × List Task
  | 0, ts => ([], ts)
  | m + 1, ts =>
    let r := getNextTask peerId now ts
    let rest := getNextTaskRun peerId now m r.2
    (match r.1 with
     | some t => t :: rest.1
     | none => rest.1, rest.2)

/-- Store states reachable from a load through the mutating operations:
`getNextTask`, `submitResult`, the stuck-task sweep, and the
dispatcher's disconnect requeue. -/
inductive Reachable : List Task → Prop where
  | load (data : List Nat) (chunkSize : Nat) :
      Reachable (loadChunksTasks data chunkSize)
  | next (peerId now : Nat) {ts : List Task} :
      Reachable ts → Reachable (getNextTask peerId now ts).2
  | submit (taskId : Nat) (resultBuffer : List Nat) {ts : List Task} :
      Reachable ts → Reachable (submitResult taskId resultBuffer ts).2
  | sweep (now : Nat) {ts : List Task} :
      Reachable ts → Reachable (checkAndRequeueStuckTasks now ts)
  | disconnect (peer : Nat) (loaned : List Nat) {ts : List Task} :
      Reachable ts → Reachable (disconnectRequeue peer loaned ts)

/-- The per-task invariant of the data model: assignment fields are
populated exactly when `assigned`, the result exactly when `done`, and
a populated result has exactly the payload's length. -/
def TaskInv (t : Task) : Prop :=
  (t.status = TaskStatus.assigned ↔ t.assignedTo ≠ none) ∧
  (t.status = TaskStatus.assigned ↔ t.assignmentTime ≠ none) ∧
  (t.status = TaskStatus.done ↔ t.result ≠ none) ∧
  (t.result.getD t.buffer).length = t.buffer.length

instance (t : Task) : Decidable (TaskInv t) := by
  unfold TaskInv
  infer_instance


/-! ## Helper lemmas -/

theorem isAllDone_eq_false_of_mem {ts : List Task} {t : Task} (ht : t ∈ ts)
    (h : t.status ≠ TaskStatus.done) : isAllDone ts = false := by
  unfold isAllDone
  rw [beq_eq_false_iff_ne]
  intro hlen
  have hall := List.filter_length_eq_length.mp hlen t ht
  simp only [beq_iff_eq] at hall
  exact h hall

/-! ## Claims -/

/-- **C3**: the stuck-task sweep at time `now` with timeout
`ASSIGNED_TIMEOUT_MS = 5000` visits every task; a task `Assigned` with
assignment time more than the timeout before `now` is reverted to
`Pending` with `assignedTo`/`assignmentTime` cleared; an `Assigned`
task within the timeout is unchanged; `Pending` and `Done` tasks are
unchanged. -/
theorem checkAndRequeueStuckTasks_spec (now : Nat) (ts : List Task) :
    checkAndRequeueStuckTasks now ts = ts.map (sweepTask now)
    ∧ (∀ (t : Task) (t0 : Nat), t.status = TaskStatus.assigned →
        t.assignmentTime = some t0 →
        (((ASSIGNED_TIMEOUT_MS : Int) < (now : Int) - (t0 : Int) →
            sweepTask now t =
              { t with status := TaskStatus.pending
                       assignedTo := none
                       assignmentTime := none })
          ∧ ((now : Int) - (t0 : Int) ≤ (ASSIGNED_TIMEOUT_MS : Int) →
              sweepTask now t = t)))
    ∧ (∀ t : Task, t.status ≠ TaskStatus.assigned → sweepTask now t = t) := by
  refine ⟨rfl, ?_, ?_⟩
  · intro t t0 hstat htime
    constructor
    · intro hlate
      simp only [sweepTask, htime]
      rw [if_pos ⟨hstat, hlate⟩]
    · intro hearly
      simp only [sweepTask, htime]
      rw [if_neg]
      intro hcontra
      exact absurd hcontra.2 (not_lt.mpr hearly)
  · intro t hstat
    cases htime : t.assignmentTime with
    | none => simp only [sweepTask, htime]
    | some t0 =>
      simp only [sweepTask, htime]
      rw [if_neg]
      intro hcontra
      exact hstat hcontra.1

/-- **C3 witness**: a task assigned at `T = 1000` is reverted by a sweep
at `T + 6000` and left assigned by a sweep at `T + 1000`. -/
theorem checkAndRequeueStuckTasks_witness :
    sweepTask 7000 ⟨1, 0, [1, 2, 3, 4], TaskStatus.assigned, some 3, some 1000, none⟩
      = ⟨1, 0, [1, 2, 3, 4], TaskStatus.pending, none, none, none⟩
    ∧ sweepTask 2000 ⟨1, 0, [1, 2, 3, 4], TaskStatus.assigned, some 3, some 1000, none⟩
      = ⟨1, 0, [1, 2, 3, 4], TaskStatus.assigned, some 3, some 1000, none⟩ :=
  ⟨((checkAndRequeueStuckTasks_spec 7000 []).2.1 _ 1000 rfl rfl).1 (by decide),
   ((checkAndRequeueStuckTasks_spec 2000 []).2.1 _ 1000 rfl rfl).2 (by decide)⟩

/-- **C8**: the dispatcher's disconnect handling mutates each task either
not at all or exactly as the Task Store's `revertToPending` transition
does, and likewise for the stuck-task sweep; so every status transition
of the system coincides with a Task Store operation
(`revertToPending` itself is modelled from the spec, the code inlining
it at both call sites). -/
theorem taskStore_sole_mutator (peer : Nat) (loaned : List Nat) (now : Nat)
    (t : Task) (ts : List Task) :
    disconnectRequeue peer loaned ts = ts.map (disconnectRequeueTask peer loaned)
    ∧ (disconnectRequeueTask peer loaned t = revertToPending t
        ∨ disconnectRequeueTask peer loaned t = t)
    ∧ (sweepTask now t = revertToPending t ∨ sweepTask now t = t) := by
  refine ⟨rfl, ?_, ?_⟩
  · unfold disconnectRequeueTask revertToPending
    by_cases h : t.id ∈ loaned ∧ t.status = TaskStatus.assigned ∧ t.assignedTo = some peer
    · left
      rw [if_pos h, if_pos h.2.1]
    · right
      rw [if_neg h]
  · cases htime : t.assignmentTime with
    | none => right; simp only [sweepTask, htime]
    | some t0 =>
      by_cases h : t.status = TaskStatus.assigned ∧
          (now : Int) - (t0 : Int) > (ASSIGNED_TIMEOUT_MS : Int)
      · left
        simp only [sweepTask, revertToPending, htime]
        rw [if_pos h, if_pos h.1]
      · right
        simp only [sweepTask, htime]
        rw [if_neg h]

/-- **C10**: on an empty task store `isAllDone()` is vacuously true, so
`finalizeResults()` does not fail closed: it processes the empty buffer,
encrypts it, and writes the key, IV and artifact files. -/
theorem finalizeResults_empty_store (encrypt : List Nat → List Nat) (key iv : List Nat) :
    isAllDone [] = true
    ∧ finalizeResults encrypt key iv [] =
        (some (iv ++ encrypt []),
          [⟨ENCRYPTION_KEY_PATH, key⟩, ⟨ENCRYPTION_IV_PATH, iv⟩,
           ⟨RESULT_FILE_PATH, iv ++ encrypt []⟩]) :=
  ⟨rfl, by simp [finalizeResults, isAllDone, combinedBuffer, sortByChunkIndex,
    toSamples, reverseSamples]⟩

/-- **C4**: if some task is not `Done`, `finalizeResults` returns the
failure signal (null) and performs no file writes; the source function
contains no task mutation at all, so the store is untouched. -/
theorem finalizeResults_fails_closed (encrypt : List Nat → List Nat) (key iv : List Nat)
    (ts : List Task) (t : Task) (ht : t ∈ ts) (hstat : t.status ≠ TaskStatus.done) :
    finalizeResults encrypt key iv ts = (none, []) := by
  unfold finalizeResults
  rw [isAllDone_eq_false_of_mem ht hstat]
  simp

/-- **C4 witness**: finalizing a store with one still-pending task
returns null and writes nothing. -/
theorem finalizeResults_fails_closed_witness :
    finalizeResults id [1] [2]
      [⟨1, 0, [5], TaskStatus.pending, none, none, none⟩] = (none, []) :=
  finalizeResults_fails_closed id [1] [2] _
    ⟨1, 0, [5], TaskStatus.pending, none, none, none⟩ (by decide) (by decide)

/-- **C7 counterexample**: the task-data frame the server sends to peer 7
for task 3 does **not** carry the peer id in bytes 0-1 and the command id
in bytes 2-3 — it carries the command id (100) in bytes 0-1 and the task
id in bytes 2-3. -/
theorem taskData_frame_counterexample :
    ¬ (readUInt16BE (mkTaskDataFrame 3 [9, 9, 9, 9]) 0 = 7
       ∧ readUInt16BE (mkTaskDataFrame 3 [9, 9, 9, 9]) 2
           = SERVER_COMMAND_TYPE_TASK_DATA) := by
  decide

/-- **C7 (amended)**: worker→server frames carry the 16-bit BE peer id
in bytes 0-1 and the command id in bytes 2-3; server status frames carry
peer id 0 then command id 101; but the server→worker task-data frame
instead begins with the command id 100 in bytes 0-1 and the task id in
bytes 2-3 (no peer-id field), followed by the raw chunk bytes; the
handshake acknowledgment is exactly 2 bytes. -/
theorem frame_header_layout (peerId commandId taskId : Nat) (body chunk : List Nat)
    (hp : peerId < 65536) (hc : commandId < 65536) (ht : taskId < 65536) :
    (readUInt16BE (mkClientFrame peerId commandId body) 0 = peerId
      ∧ readUInt16BE (mkClientFrame peerId commandId body) 2 = commandId
      ∧ (mkClientFrame peerId commandId body).drop 4 = body)
    ∧ (readUInt16BE (mkTaskDataFrame taskId chunk) 0 = SERVER_COMMAND_TYPE_TASK_DATA
      ∧ readUInt16BE (mkTaskDataFrame taskId chunk) 2 = taskId
      ∧ (mkTaskDataFrame taskId chunk).drop 4 = chunk)
    ∧ (readUInt16BE (mkStatusFrame body) 0 = 0
      ∧ readUInt16BE (mkStatusFrame body) 2 = SERVER_COMMAND_TYPE_STATUS_MESSAGE
      ∧ (mkStatusFrame body).drop 4 = body)
    ∧ (mkHandshakeAck peerId).length = 2 := by
  refine ⟨⟨?_, ?_, ?_⟩, ⟨?_, ?_, ?_⟩, ⟨?_, ?_, ?_⟩, ?_⟩ <;>
    simp [mkClientFrame, mkTaskDataFrame, mkStatusFrame, mkHandshakeAck,
      writeUInt16BE, readUInt16BE, SERVER_COMMAND_TYPE_TASK_DATA,
      SERVER_COMMAND_TYPE_STATUS_MESSAGE] <;> omega

/-- **C7 witness**: concrete header decodes. -/
theorem frame_header_layout_witness :
    readUInt16BE (mkClientFrame 7 2 [123]) 0 = 7
    ∧ readUInt16BE (mkTaskDataFrame 3 [9, 9]) 2 = 3 :=
  ⟨(frame_header_layout 7 2 3 [123] [9, 9] (by decide) (by decide) (by decide)).1.1,
   (frame_header_layout 7 2 3 [123] [9, 9] (by decide) (by decide) (by decide)).2.1.2.1⟩

/-- **C2**: `submitResult(taskId, bytes)` returns false with the store
entirely unchanged exactly when the task id is unknown, the task is
already `Done`, or the byte length differs from the payload length (in
particular a length-mismatched submission leaves the task `Assigned`);
otherwise it returns true and sets exactly that task to `Done` with
`result = bytes`, `assignedTo = null`, `assignmentTime = null`; and a
replay of the same task id after a successful submission returns false. -/
theorem submitResult_spec (taskId : Nat) (resultBuffer : List Nat) (ts : List Task) :
    ((submitResult taskId resultBuffer ts).1 = false ↔
      (ts.find? (fun t => t.id == taskId) = none ∨
        ∃ t, ts.find? (fun t => t.id == taskId) = some t ∧
          (t.status = TaskStatus.done ∨ resultBuffer.length ≠ t.buffer.length)))
    ∧ ((submitResult taskId resultBuffer ts).1 = false →
        (submitResult taskId resultBuffer ts).2 = ts)
    ∧ (∀ t, ts.find? (fun u => u.id == taskId) = some t →
        t.status ≠ TaskStatus.done → resultBuffer.length = t.buffer.length →
        submitResult taskId resultBuffer ts =
          (true, ts.map fun u => if u.id == taskId then completeTask resultBuffer u else u))
    ∧ (∀ ts', submitResult taskId resultBuffer ts = (true, ts') →
        ∀ buf2, (submitResult taskId buf2 ts').1 = false) := by
  refine ⟨?_, ?_, ?_, ?_⟩
  · cases hf : ts.find? (fun t => t.id == taskId) with
    | none => simp [submitResult, hf]
    | some t =>
      by_cases hd : t.status = TaskStatus.done
      · simp [submitResult, hf, hd]
      · by_cases hl : resultBuffer.length = t.buffer.length
        · simp [submitResult, hf, hd, hl]
        · simp [submitResult, hf, hd, hl]
  · cases hf : ts.find? (fun t => t.id == taskId) with
    | none => intro _; simp [submitResult, hf]
    | some t =>
      by_cases hd : t.status = TaskStatus.done
      · intro _; simp [submitResult, hf, hd]
      · by_cases hl : resultBuffer.length = t.buffer.length
        · intro hfalse
          exfalso
          simp [submitResult, hf, hd, hl] at hfalse
        · intro _; simp [submitResult, hf, hd, hl]
  · intro t hf hd hl
    simp [submitResult, hf, hd, hl]
  · intro ts' hsub buf2
    cases hf : ts.find? (fun t => t.id == taskId) with
    | none => simp [submitResult, hf] at hsub
    | some t =>
      by_cases hd : t.status = TaskStatus.done
      · simp [submitResult, hf, hd] at hsub
      · by_cases hl : resultBuffer.length = t.buffer.length
        · have heq : submitResult taskId resultBuffer ts =
              (true, ts.map fun u => if u.id == taskId then completeTask resultBuffer u else u) := by
            simp only [submitResult, hf]
            rw [if_neg hd, if_neg (fun hcon => hcon hl)]
          have hpair := hsub.symm.trans heq
          simp only [Prod.mk.injEq, true_and] at hpair
          have hts' : ts' =
              ts.map fun u => if u.id == taskId then completeTask resultBuffer u else u := hpair
          have hpt0 := List.find?_some hf
          have hpt : t.id = taskId := by simpa using hpt0
          have hcomp : ((fun u : Task => u.id == taskId) ∘
              fun u => if u.id == taskId then completeTask resultBuffer u else u)
              = fun u : Task => u.id == taskId := by
            funext u
            by_cases hu : u.id = taskId
            · simp [hu, completeTask]
            · simp [hu]
          have hfind : ts'.find? (fun u => u.id == taskId)
              = some (completeTask resultBuffer t) := by
            rw [hts', List.find?_map, hcomp, hf]
            simp [hpt]
          simp [submitResult, hfind, completeTask]
        · simp [submitResult, hf, hd, hl] at hsub

/-- **C2 witness**: a correct-length submission for an assigned task
succeeds and marks it done. -/
theorem submitResult_spec_witness :
    submitResult 1 [7, 8] [⟨1, 0, [1, 2], TaskStatus.assigned, some 4, some 10, none⟩]
      = (true, [⟨1, 0, [1, 2], TaskStatus.done, none, none, some [7, 8]⟩]) := by
  have h := (submitResult_spec 1 [7, 8]
      [⟨1, 0, [1, 2], TaskStatus.assigned, some 4, some 10, none⟩]).2.2.1
    ⟨1, 0, [1, 2], TaskStatus.assigned, some 4, some 10, none⟩
    (by decide) (by decide) (by decide)
  simpa using h

/-! ### getNextTask helper lemmas -/

theorem getNextTask_first_pending (p now : Nat) (pre post : List Task) (t : Task)
    (hpre : ∀ u ∈ pre, u.status ≠ TaskStatus.pending)
    (ht : t.status = TaskStatus.pending) :
    getNextTask p now (pre ++ t :: post) =
      (some (assignTask p now t), pre ++ assignTask p now t :: post) := by
  induction pre with
  | nil => simp [getNextTask, ht]
  | cons a pre ih =>
    have ha := hpre a (List.mem_cons_self a pre)
    have ih2 := ih fun u hu => hpre u (List.mem_cons_of_mem a hu)
    simp [getNextTask, ha, ih2]

theorem getNextTask_eq_none_iff (p now : Nat) (ts : List Task) :
    (getNextTask p now ts).1 = none ↔ ∀ t ∈ ts, t.status ≠ TaskStatus.pending := by
  induction ts with
  | nil => simp [getNextTask]
  | cons a ts ih =>
    by_cases ha : a.status = TaskStatus.pending
    · simp only [getNextTask, if_pos ha]
      constructor
      · intro h
        exact absurd h (by simp)
      · intro h
        exact absurd ha (h a (List.mem_cons_self a ts))
    · simp [getNextTask, ha, ih]

theorem getNextTask_none_store (p now : Nat) {ts : List Task}
    (h : (getNextTask p now ts).1 = none) : (getNextTask p now ts).2 = ts := by
  induction ts with
  | nil => rfl
  | cons a ts ih =>
    by_cases ha : a.status = TaskStatus.pending
    · simp [getNextTask, ha] at h
    · simp only [getNextTask, if_neg ha] at h ⊢
      rw [ih h]

theorem getNextTask_eq_some (p now : Nat) {ts : List Task} {t' : Task}
    (h : (getNextTask p now ts).1 = some t') :
    ∃ pre t post, ts = pre ++ t :: post
      ∧ (∀ u ∈ pre, u.status ≠ TaskStatus.pending)
      ∧ t.status = TaskStatus.pending
      ∧ t' = assignTask p now t
      ∧ (getNextTask p now ts).2 = pre ++ t' :: post := by
  induction ts with
  | nil => simp [getNextTask] at h
  | cons a ts ih =>
    by_cases ha : a.status = TaskStatus.pending
    · have ht' : t' = assignTask p now a := by
        simp only [getNextTask, if_pos ha] at h
        exact (Option.some.inj h).symm
      refine ⟨[], a, ts, rfl, by simp, ha, ht', ?_⟩
      simp [getNextTask, ha, ht']
    · have h' : (getNextTask p now ts).1 = some t' := by
        simpa [getNextTask, ha] using h
      obtain ⟨pre, t, post, hts, hpre, htp, ht', h2⟩ := ih h'
      refine ⟨a :: pre, t, post, by simp [hts], ?_, htp, ht', ?_⟩
      · intro u hu
        rcases List.mem_cons.mp hu with rfl | hu
        · exact ha
        · exact hpre u hu
      · simp only [getNextTask, if_neg ha, List.cons_append]
        rw [h2]

theorem getNextTask_map_id (p now : Nat) (ts : List Task) :
    (getNextTask p now ts).2.map Task.id = ts.map Task.id := by
  induction ts with
  | nil => rfl
  | cons a ts ih =>
    by_cases ha : a.status = TaskStatus.pending
    · simp [getNextTask, ha, assignTask]
    · simp [getNextTask, ha, ih]

theorem getNextTask_some_facts (p now : Nat) {ts : List Task} {t' : Task}
    (hnd : (ts.map Task.id).Nodup)
    (h : (getNextTask p now ts).1 = some t') :
    (∃ u ∈ ts, u.status = TaskStatus.pending ∧ u.id = t'.id)
    ∧ (∀ u ∈ (getNextTask p now ts).2, u.status = TaskStatus.pending →
        u ∈ ts ∧ u.id ≠ t'.id) := by
  obtain ⟨pre, t, post, hts, hpre, htp, ht', h2⟩ := getNextTask_eq_some p now h
  subst ht'
  subst hts
  constructor
  · exact ⟨t, by simp, htp, rfl⟩
  · intro u hu hup
    rw [h2] at hu
    rcases List.mem_append.mp hu with hu | hu
    · exact absurd hup (hpre u hu)
    · rcases List.mem_cons.mp hu with rfl | hu
      · simp [assignTask] at hup
      · have htid : t.id ∉ post.map Task.id := by
          have hnd2 : (pre.map Task.id ++ (t :: post).map Task.id).Nodup := by
            simpa using hnd
          have hsuf : ((t :: post).map Task.id).Nodup := hnd2.of_append_right
          exact (List.nodup_cons.mp (by simpa using hsuf)).1
        refine ⟨by simp [hu], ?_⟩
        intro hid
        have hmem : u.id ∈ post.map Task.id := List.mem_map_of_mem Task.id hu
        rw [hid] at hmem
        simp only [assignTask] at hmem
        exact htid hmem

theorem getNextTaskRun_facts (p now : Nat) (m : Nat) (ts : List Task)
    (hnd : (ts.map Task.id).Nodup) :
    ((getNextTaskRun p now m ts).1.map Task.id).Nodup
    ∧ ∀ t' ∈ (getNextTaskRun p now m ts).1,
        ∃ u ∈ ts, u.status = TaskStatus.pending ∧ u.id = t'.id := by
  induction m generalizing ts with
  | zero => simp [getNextTaskRun]
  | succ m ih =>
    cases hr : (getNextTask p now ts).1 with
    | none =>
      have h2 : (getNextTask p now ts).2 = ts := getNextTask_none_store p now hr
      have ihts := ih ts hnd
      simp only [getNextTaskRun, hr, h2]
      exact ihts
    | some t' =>
      have hnd2 : ((getNextTask p now ts).2.map Task.id).Nodup := by
        rw [getNextTask_map_id]
        exact hnd
      have ihts := ih (getNextTask p now ts).2 hnd2
      have hfacts := getNextTask_some_facts p now hnd hr
      simp only [getNextTaskRun, hr]
      constructor
      · rw [List.map_cons, List.nodup_cons]
        refine ⟨?_, ihts.1⟩
        intro hmem
        rcases List.mem_map.mp hmem with ⟨r, hrmem, hrid⟩
        obtain ⟨u, humem, hupend, huid⟩ := ihts.2 r hrmem
        have hu2 := hfacts.2 u humem hupend
        exact hu2.2 (by rw [huid, hrid])
      · intro r hr2
        rcases List.mem_cons.mp hr2 with rfl | hr2
        · obtain ⟨u, humem, hupend, huid⟩ := hfacts.1
          exact ⟨u, humem, hupend, huid⟩
        · obtain ⟨u, humem, hupend, huid⟩ := ihts.2 r hr2
          have hu2 := hfacts.2 u humem hupend
          exact ⟨u, hu2.1, hupend, huid⟩

/-- **C1**: `getNextTask(peerId)` assigns and returns the first pending
task in scan order (stamping `assignedTo = peerId`, `assignmentTime = now`)
leaving every other task unchanged; it returns null exactly when no task
is pending; on an id-sorted store the returned task has the least id
among pending tasks; and `m` successive calls return pairwise-distinct
task ids. -/
theorem getNextTask_spec :
    (∀ (p now : Nat) (pre post : List Task) (t : Task),
        (∀ u ∈ pre, u.status ≠ TaskStatus.pending) →
        t.status = TaskStatus.pending →
        getNextTask p now (pre ++ t :: post) =
          (some (assignTask p now t), pre ++ assignTask p now t :: post))
    ∧ (∀ (p now : Nat) (ts : List Task),
        (getNextTask p now ts).1 = none ↔ ∀ t ∈ ts, t.status ≠ TaskStatus.pending)
    ∧ (∀ (p now : Nat) (ts : List Task) (t' : Task),
        List.Pairwise (fun a b => a.id < b.id) ts →
        (getNextTask p now ts).1 = some t' →
        ∀ u ∈ ts, u.status = TaskStatus.pending → t'.id ≤ u.id)
    ∧ (∀ (p now m : Nat) (ts : List Task),
        (ts.map Task.id).Nodup →
        ((getNextTaskRun p now m ts).1.map Task.id).Nodup) := by
  refine ⟨getNextTask_first_pending, getNextTask_eq_none_iff, ?_, ?_⟩
  · intro p now ts t' hsort h u hu hup
    obtain ⟨pre, t, post, hts, hpre, htp, ht', h2⟩ := getNextTask_eq_some p now h
    subst ht'
    subst hts
    have hid : (assignTask p now t).id = t.id := rfl
    rw [hid]
    rcases List.mem_append.mp hu with hu | hu
    · exact absurd hup (hpre u hu)
    · rcases List.mem_cons.mp hu with rfl | hu
      · exact le_refl _
      · have hsuf : List.Pairwise (fun a b => a.id < b.id) (t :: post) :=
          hsort.sublist (List.sublist_append_right pre (t :: post))
        exact le_of_lt ((List.pairwise_cons.mp hsuf).1 u hu)
  · intro p now m ts hnd
    exact (getNextTaskRun_facts p now m ts hnd).1

/-- **C1 witness**: on a store whose first task is done and second is
pending, `getNextTask` assigns and returns the second task. -/
theorem getNextTask_spec_witness :
    getNextTask 4 50 [⟨1, 0, [1], TaskStatus.done, none, none, some [2]⟩,
                      ⟨2, 1, [3], TaskStatus.pending, none, none, none⟩]
      = (some ⟨2, 1, [3], TaskStatus.assigned, some 4, some 50, none⟩,
         [⟨1, 0, [1], TaskStatus.done, none, none, some [2]⟩,
          ⟨2, 1, [3], TaskStatus.assigned, some 4, some 50, none⟩]) :=
  getNextTask_spec.1 4 50 [⟨1, 0, [1], TaskStatus.done, none, none, some [2]⟩]
    [] ⟨2, 1, [3], TaskStatus.pending, none, none, none⟩ (by decide) rfl

/-! ### Partitioner helper lemmas -/

theorem chunkAt_eq_take (data : List Nat) (cs i : Nat) :
    chunkAt data cs i = (data.drop (i * cs)).take cs := by
  unfold chunkAt
  rcases le_or_lt (i * cs) data.length with h | h
  · have hlen : (data.drop (i * cs)).length = data.length - i * cs := by simp
    have hmin : min (i * cs + cs) data.length - i * cs
        = min cs (data.length - i * cs) := by
      rcases le_total (i * cs + cs) data.length with hle | hle
      · rw [min_eq_left hle, min_eq_left (by omega)]
        omega
      · rw [min_eq_right hle, min_eq_right (by omega)]
    rw [hmin, ← hlen, ← List.take_take, List.take_length]
  · have h1 : data.drop (i * cs) = [] := List.drop_eq_nil_of_le (by omega)
    have h2 : min (i * cs + cs) data.length - i * cs = 0 := by
      rw [min_eq_right (by omega)]
      omega
    rw [h1, h2]
    simp

theorem chunkAt_succ (data : List Nat) (cs i : Nat) :
    chunkAt data cs (i + 1) = chunkAt (data.drop cs) cs i := by
  rw [chunkAt_eq_take, chunkAt_eq_take, List.drop_drop]
  congr 2
  ring

theorem numChunks_eq_zero {len cs : Nat} (hcs : 0 < cs) (h : numChunks len cs = 0) :
    len = 0 := by
  unfold numChunks at h
  rw [Nat.div_eq_zero_iff hcs] at h
  omega

theorem numChunks_succ {len cs : Nat} (hcs : 0 < cs) (hlen : 0 < len) :
    numChunks len cs = numChunks (len - cs) cs + 1 := by
  unfold numChunks
  rcases le_or_lt len cs with h | h
  · have h1 : len - cs = 0 := by omega
    rw [h1]
    have h2 : (0 + cs - 1) / cs = 0 := Nat.div_eq_of_lt (by omega)
    rw [h2]
    exact Nat.div_eq_of_lt_le (by omega) (by omega)
  · have h1 : len + cs - 1 = (len - cs + cs - 1) + cs := by omega
    rw [h1, Nat.add_div_right _ hcs]

theorem loadChunksBuffers_flatten (data : List Nat) (cs : Nat) (hcs : 0 < cs) :
    (loadChunksBuffers data cs).flatten = data := by
  suffices h : ∀ (n : Nat) (d : List Nat), numChunks d.length cs = n →
      (loadChunksBuffers d cs).flatten = d by
    exact h _ data rfl
  intro n
  induction n with
  | zero =>
    intro d h0
    have hlen : d.length = 0 := numChunks_eq_zero hcs h0
    have hd : d = [] := List.length_eq_zero.mp hlen
    subst hd
    unfold loadChunksBuffers
    rw [h0]
    simp
  | succ n ih =>
    intro d h0
    have hlen : 0 < d.length := by
      by_contra hcon
      have h1 : d.length = 0 := by omega
      unfold numChunks at h0
      rw [h1, Nat.div_eq_of_lt (by omega)] at h0
      exact Nat.succ_ne_zero n h0.symm
    have hnext : numChunks (d.drop cs).length cs = n := by
      rw [List.length_drop]
      have hstep := numChunks_succ hcs hlen
      omega
    unfold loadChunksBuffers
    rw [h0, List.range_succ_eq_map, List.map_cons, List.map_map, List.flatten_cons]
    have hhead : chunkAt d cs 0 = d.take cs := by
      rw [chunkAt_eq_take]
      simp
    have htail : (List.range n).map (chunkAt d cs ∘ Nat.succ)
        = (List.range n).map (chunkAt (d.drop cs) cs) := by
      apply List.map_congr_left
      intro i _
      show chunkAt d cs (i + 1) = chunkAt (d.drop cs) cs i
      exact chunkAt_succ d cs i
    rw [hhead, htail]
    have hih := ih (d.drop cs) hnext
    unfold loadChunksBuffers at hih
    rw [hnext] at hih
    rw [hih]
    exact List.take_append_drop cs d

/-- **C5**: the partitioner produces chunk `i` spanning
`[i*chunkSize, min((i+1)*chunkSize, totalLength))` — equivalently the
`chunkSize`-byte window after dropping `i*chunkSize` bytes, so only the
last chunk may be short — and concatenating the chunks in
`chunkIndex`/sequence order reproduces the original byte sequence
exactly, for any data and positive chunk size. -/
theorem partition_spec (data : List Nat) (cs : Nat) (hcs : 0 < cs) :
    (∀ i, chunkAt data cs i = (data.drop (i * cs)).take cs)
    ∧ (∀ i, i + 1 < numChunks data.length cs → (chunkAt data cs i).length = cs)
    ∧ (loadChunksBuffers data cs).flatten = data
    ∧ (loadChunksTasks data cs).map Task.buffer = loadChunksBuffers data cs
    ∧ (loadChunksTasks data cs).map Task.chunkIndex
        = List.range (numChunks data.length cs) := by
  refine ⟨fun i => chunkAt_eq_take data cs i, ?_,
    loadChunksBuffers_flatten data cs hcs, ?_, ?_⟩
  · intro i hi
    have h2 : i + 2 ≤ (data.length + cs - 1) / cs := hi
    have h3 : (i + 2) * cs ≤ data.length + cs - 1 :=
      (Nat.le_div_iff_mul_le hcs).mp h2
    have hexp : (i + 2) * cs = i * cs + 2 * cs := by ring
    rw [hexp] at h3
    rw [chunkAt_eq_take, List.length_take, List.length_drop]
    set x := i * cs with hx
    omega
  · unfold loadChunksTasks loadChunksBuffers
    rw [List.map_map]
    rfl
  · unfold loadChunksTasks
    rw [List.map_map]
    exact List.map_id _

/-- **C5 witness**: partitioning 5 bytes with chunk size 2 (one short
final chunk) and concatenating reproduces the data. -/
theorem partition_spec_witness :
    (loadChunksBuffers [1, 2, 3, 4, 5] 2).flatten = [1, 2, 3, 4, 5] :=
  (partition_spec [1, 2, 3, 4, 5] 2 (by decide)).2.2.1

/-! ### Finalizer helper lemmas -/

theorem reverseSamples_eq_reverse (l : List (List Nat)) :
    reverseSamples l = l.reverse := by
  apply List.ext_getElem
  · simp [reverseSamples]
  · intro i h1 h2
    have hi : i < l.length := by simpa [reverseSamples] using h1
    have hlt : l.length - 1 - i < l.length := by omega
    simp only [reverseSamples, List.getElem_map, List.getElem_range,
      List.getElem_reverse]
    exact List.getD_eq_getElem l [] hlt

theorem toSamples_flatten (bytes : List Nat) : (toSamples bytes).flatten = bytes := by
  induction bytes using toSamples.induct with
  | case1 => simp [toSamples]
  | case2 b bs ih =>
    simp only [toSamples, List.flatten_cons, ih, List.cons_append]
    rw [List.take_append_drop]

theorem sortByChunkIndex_eq_self {ts : List Task}
    (h : List.Pairwise (fun a b => a.chunkIndex < b.chunkIndex) ts) :
    sortByChunkIndex ts = ts := by
  induction ts with
  | nil => rfl
  | cons a ts ih =>
    have hsorted := List.pairwise_cons.mp h
    rw [sortByChunkIndex, ih hsorted.2]
    cases ts with
    | nil => rfl
    | cons b ts2 =>
      have hab : a.chunkIndex < b.chunkIndex := hsorted.1 b (List.mem_cons_self b ts2)
      rw [insertByChunkIndex, if_neg (by omega)]

theorem combinedBuffer_of_sorted {ts : List Task}
    (h : List.Pairwise (fun a b => a.chunkIndex < b.chunkIndex) ts) :
    combinedBuffer ts = (ts.map fun t => t.result.getD []).flatten := by
  unfold combinedBuffer
  rw [sortByChunkIndex_eq_self h]

/-- **C6**: when all tasks are done, the finalizer concatenates the task
results in `chunkIndex` (sequence) order into one buffer, reinterprets it
as consecutive 32-bit samples, and emits the samples in fully reversed
whole-sequence order; the reversal loop equals `List.reverse` and is
involutive, and the sample grouping is lossless. -/
theorem finalize_reversal_spec (ts : List Task) (encrypt : List Nat → List Nat)
    (key iv : List Nat) (l : List (List Nat)) (bytes : List Nat) :
    (List.Pairwise (fun a b => a.chunkIndex < b.chunkIndex) ts →
      combinedBuffer ts = (ts.map fun t => t.result.getD []).flatten)
    ∧ (toSamples bytes).flatten = bytes
    ∧ reverseSamples l = l.reverse
    ∧ reverseSamples (reverseSamples l) = l
    ∧ (isAllDone ts = true →
        (finalizeResults encrypt key iv ts).1 =
          some (iv ++ encrypt ((reverseSamples (toSamples (combinedBuffer ts))).flatten))) := by
  refine ⟨combinedBuffer_of_sorted, toSamples_flatten bytes,
    reverseSamples_eq_reverse l, ?_, ?_⟩
  · rw [reverseSamples_eq_reverse, reverseSamples_eq_reverse, List.reverse_reverse]
  · intro hdone
    simp [finalizeResults, hdone]

/-- **C6 witness**: combining a concrete all-done two-task store in
sequence order. -/
theorem finalize_reversal_witness :
    combinedBuffer [⟨1, 0, [1, 2], TaskStatus.done, none, none, some [1, 2]⟩,
                    ⟨2, 1, [3], TaskStatus.done, none, none, some [3]⟩]
      = [1, 2, 3] := by
  have h := (finalize_reversal_spec
      [⟨1, 0, [1, 2], TaskStatus.done, none, none, some [1, 2]⟩,
       ⟨2, 1, [3], TaskStatus.done, none, none, some [3]⟩]
      id [] [] [] []).1 (by decide)
  exact h.trans (by decide)

/-! ### Invariant helper lemmas -/

theorem map_id_of_preserve {f : Task → Task} (hf : ∀ t, (f t).id = t.id)
    (ts : List Task) : (ts.map f).map Task.id = ts.map Task.id := by
  rw [List.map_map]
  exact List.map_congr_left fun t _ => hf t

theorem sweepTask_id (now : Nat) (t : Task) : (sweepTask now t).id = t.id := by
  cases h : t.assignmentTime with
  | none => simp [sweepTask, h]
  | some t0 =>
    simp only [sweepTask, h]
    split <;> rfl

theorem disconnectRequeueTask_id (peer : Nat) (loaned : List Nat) (t : Task) :
    (disconnectRequeueTask peer loaned t).id = t.id := by
  unfold disconnectRequeueTask
  split <;> rfl

theorem TaskInv_pendingReset {t : Task} (hinv : TaskInv t)
    (hstat : t.status = TaskStatus.assigned) :
    TaskInv { t with status := TaskStatus.pending
                     assignedTo := none
                     assignmentTime := none } := by
  obtain ⟨h1, h2, h3, h4⟩ := hinv
  have hres : t.result = none := by
    by_contra hcon
    have hd := h3.mpr hcon
    rw [hstat] at hd
    exact absurd hd (by decide)
  simp [TaskInv, hres]

theorem sweepTask_inv {t : Task} (hinv : TaskInv t) (now : Nat) :
    TaskInv (sweepTask now t) := by
  cases h : t.assignmentTime with
  | none => simpa [sweepTask, h] using hinv
  | some t0 =>
    simp only [sweepTask, h]
    by_cases hcond : t.status = TaskStatus.assigned ∧
        (now : Int) - (t0 : Int) > (ASSIGNED_TIMEOUT_MS : Int)
    · rw [if_pos hcond]
      exact TaskInv_pendingReset hinv hcond.1
    · rw [if_neg hcond]
      exact hinv

theorem disconnectRequeueTask_inv {t : Task} (hinv : TaskInv t)
    (peer : Nat) (loaned : List Nat) :
    TaskInv (disconnectRequeueTask peer loaned t) := by
  unfold disconnectRequeueTask
  by_cases hcond : t.id ∈ loaned ∧ t.status = TaskStatus.assigned ∧
      t.assignedTo = some peer
  · rw [if_pos hcond]
    exact TaskInv_pendingReset hinv hcond.2.1
  · rw [if_neg hcond]
    exact hinv

theorem loadChunksTasks_inv (data : List Nat) (cs : Nat) :
    ∀ t ∈ loadChunksTasks data cs, TaskInv t := by
  intro t ht
  unfold loadChunksTasks at ht
  rcases List.mem_map.mp ht with ⟨i, _, rfl⟩
  simp [TaskInv]

theorem loadChunksTasks_nodup (data : List Nat) (cs : Nat) :
    ((loadChunksTasks data cs).map Task.id).Nodup := by
  unfold loadChunksTasks
  rw [List.map_map]
  apply List.Nodup.map
  · intro a b hab
    have hab2 : a + 1 = b + 1 := hab
    omega
  · exact List.nodup_range _

theorem getNextTask_inv {ts : List Task} (hinv : ∀ t ∈ ts, TaskInv t)
    (p now : Nat) : ∀ t ∈ (getNextTask p now ts).2, TaskInv t := by
  cases hr : (getNextTask p now ts).1 with
  | none =>
    rw [getNextTask_none_store p now hr]
    exact hinv
  | some t' =>
    obtain ⟨pre, t, post, hts, hpre, htp, ht', hstore⟩ := getNextTask_eq_some p now hr
    rw [hstore]
    subst ht'
    subst hts
    intro u hu
    rcases List.mem_append.mp hu with hu | hu
    · exact hinv u (by simp [hu])
    · rcases List.mem_cons.mp hu with rfl | hu
      · have hinvt := hinv t (by simp)
        obtain ⟨h1, h2, h3, h4⟩ := hinvt
        have hres : t.result = none := by
          by_contra hcon
          have hd := h3.mpr hcon
          rw [htp] at hd
          exact absurd hd (by decide)
        simp [TaskInv, assignTask, hres]
      · exact hinv u (by simp [hu])

theorem submitResult_map_id (taskId : Nat) (buf : List Nat) (ts : List Task) :
    (submitResult taskId buf ts).2.map Task.id = ts.map Task.id := by
  cases hf : ts.find? (fun t => t.id == taskId) with
  | none => simp [submitResult, hf]
  | some t0 =>
    simp only [submitResult, hf]
    by_cases hd : t0.status = TaskStatus.done
    · rw [if_pos hd]
    · by_cases hl : buf.length = t0.buffer.length
      · rw [if_neg hd, if_neg (fun hcon => hcon hl)]
        refine map_id_of_preserve (fun u => ?_) ts
        by_cases hu : (u.id == taskId) = true
        · rw [if_pos hu]
          rfl
        · rw [if_neg hu]
      · rw [if_neg hd, if_pos hl]

theorem submitResult_inv {ts : List Task} (hnd : (ts.map Task.id).Nodup)
    (hinv : ∀ t ∈ ts, TaskInv t) (taskId : Nat) (buf : List Nat) :
    ∀ t ∈ (submitResult taskId buf ts).2, TaskInv t := by
  cases hf : ts.find? (fun t => t.id == taskId) with
  | none =>
    simp only [submitResult, hf]
    exact hinv
  | some t0 =>
    simp only [submitResult, hf]
    by_cases hd : t0.status = TaskStatus.done
    · rw [if_pos hd]
      exact hinv
    · by_cases hl : buf.length = t0.buffer.length
      · rw [if_neg hd, if_neg (fun hcon => hcon hl)]
        intro t ht
        rcases List.mem_map.mp ht with ⟨u, hu, rfl⟩
        by_cases hid : u.id = taskId
        · have ht0mem : t0 ∈ ts := List.mem_of_find?_eq_some hf
          have hfind := List.find?_some hf
          have ht0id : t0.id = taskId := by simpa using hfind
          have hut0 : u = t0 :=
            List.inj_on_of_nodup_map hnd hu ht0mem (by rw [hid, ht0id])
          have hcond : (u.id == taskId) = true := by simp [hid]
          rw [if_pos hcond]
          subst hut0
          simp [TaskInv, completeTask, hl]
        · rw [if_neg (by simp [hid])]
          exact hinv u hu
      · rw [if_neg hd, if_pos hl]
        exact hinv

theorem reachable_inv {ts : List Task} (h : Reachable ts) :
    (∀ t ∈ ts, TaskInv t) ∧ (ts.map Task.id).Nodup := by
  induction h with
  | load data cs =>
    exact ⟨loadChunksTasks_inv data cs, loadChunksTasks_nodup data cs⟩
  | next p now hr ih =>
    refine ⟨getNextTask_inv ih.1 p now, ?_⟩
    rw [getNextTask_map_id]
    exact ih.2
  | submit taskId buf hr ih =>
    refine ⟨submitResult_inv ih.2 ih.1 taskId buf, ?_⟩
    rw [submitResult_map_id]
    exact ih.2
  | sweep now hr ih =>
    refine ⟨?_, ?_⟩
    · intro t ht
      unfold checkAndRequeueStuckTasks at ht
      rcases List.mem_map.mp ht with ⟨u, hu, rfl⟩
      exact sweepTask_inv (ih.1 u hu) now
    · unfold checkAndRequeueStuckTasks
      rw [map_id_of_preserve (sweepTask_id now)]
      exact ih.2
  | disconnect peer loaned hr ih =>
    refine ⟨?_, ?_⟩
    · intro t ht
      unfold disconnectRequeue at ht
      rcases List.mem_map.mp ht with ⟨u, hu, rfl⟩
      exact disconnectRequeueTask_inv (ih.1 u hu) peer loaned
    · unfold disconnectRequeue
      rw [map_id_of_preserve (disconnectRequeueTask_id peer loaned)]
      exact ih.2

/-- **C9**: in every store state reachable from a load through
`getNextTask`, `submitResult`, the stuck-task sweep and the disconnect
requeue, every task satisfies the data-model invariant: `assignedTo` and
`assignmentTime` are populated iff the task is `Assigned`, `result` is
populated iff it is `Done`, and a populated result has exactly the
payload's length. -/
theorem task_invariant_reachable (ts : List Task) (h : Reachable ts) :
    ∀ t ∈ ts, TaskInv t :=
  (reachable_inv h).1

/-- **C9 witness**: the invariant at a concrete freshly loaded task. -/
theorem task_invariant_reachable_witness :
    TaskInv ⟨1, 0, [5, 6], TaskStatus.pending, none, none, none⟩ :=
  task_invariant_reachable _ (Reachable.load [5, 6, 7] 2)
    ⟨1, 0, [5, 6], TaskStatus.pending, none, none, none⟩ (by decide)

end TaskManager
